import Mathlib

/-!
Shallow embedding of the metrics-aggregation and rendering core of
`ftl2_htop.py` (a live terminal dashboard for remote system metrics).

Python float values are carried as exact rationals.  Where the program's
observable behaviour is sensitive to IEEE-754 rounding — the bar cell
count `int(percent / 100 * width)` — the computation is routed through an
explicit binary64 round-to-nearest-even model (`fl64`), since the exact
rational floor provably disagrees with the double-precision result (e.g.
at percent 58, width 50).  The remaining numeric paths are evaluated in
the proofs only at exactly representable points (powers of two, exact
halves, integers), where exact rational arithmetic coincides with double
arithmetic.  CPython `dict`s are modelled as insertion-ordered
association lists; `deque(maxlen=N)` ring buffers are lists that keep the
last `N` elements; Python subscripts that can raise `IndexError` are
modelled with `Option`.
-/

namespace Htop

/-- Helper: a string repeated a natural number of times. -/
def strMulAux (s : String) : ℕ → String
  | 0 => ""
  | n + 1 => s ++ strMulAux s n

/-- Python `s * n` for a string and an int (negative counts give `""`). -/
def strMul (s : String) (n : Int) : String := strMulAux s n.toNat

/-- Python format right-alignment to width `w` with spaces (as in a
width-`w` format spec). -/
def padLeft (w : ℕ) (s : String) : String := strMulAux " " (w - s.length) ++ s

/-- A natural number printed left-padded with zeros to width `w`. -/
def zeroPad (w : ℕ) (n : ℕ) : String := strMulAux "0" (w - (toString n).length) ++ toString n

/-- Rounding to the nearest integer, ties to the even integer, as CPython's
float formatting does on exactly representable values. -/
def roundHalfEven (q : ℚ) : Int :=
  let n := ⌊q⌋
  let r := q - n
  if r < 1 / 2 then n
  else if 1 / 2 < r then n + 1
  else if n % 2 = 0 then n else n + 1

/-- Python `f"{q:.prec f}"` on an exactly representable value. -/
def fmtFixed (prec : ℕ) (q : ℚ) : String :=
  let p : ℕ := 10 ^ prec
  let t : Int := roundHalfEven (q * (p : ℚ))
  let a : ℕ := t.natAbs
  (if t < 0 then "-" else "") ++ toString (a / p) ++ "." ++ zeroPad prec (a % p)

/-- Python `int()` on a rational value: truncation toward zero. -/
def pyInt (q : ℚ) : Int := if 0 ≤ q then ⌊q⌋ else -⌊-q⌋

/-- Rounding of an exact rational to the nearest IEEE-754 binary64 value
(round to nearest, ties to the even significand), including subnormals;
overflow to infinity is not modelled, as every value this program feeds
through it stays far below the binary64 overflow threshold. -/
def fl64 (x : ℚ) : ℚ :=
  if x = 0 then 0
  else
    let a := |x|
    let e := Int.log 2 a
    let q := max (e - 52) (-1074)
    (if x < 0 then -1 else 1) * (roundHalfEven (a / 2 ^ q) : ℚ) * 2 ^ q

/-- The loop of `_fmt_bytes` after the first division: remaining units and
the current (now fractional) magnitude. -/
def fmtBytesAux : List String → ℚ → String
  | [], q => fmtFixed 1 q ++ "PB"
  | u :: us, q => if |q| < 1024 then fmtFixed 1 q ++ u else fmtBytesAux us (q / 1024)

/-- `_fmt_bytes`: format a byte count as a human-readable string.  At unit
`"B"` the value is still the original int and is printed without a decimal
point; afterwards it is a float printed with one decimal place. -/
def _fmt_bytes (n : Int) : String :=
  if |n| < 1024 then toString n ++ "B"
  else fmtBytesAux ["KB", "MB", "GB", "TB"] ((n : ℚ) / 1024)

/-- `_fmt_uptime`: format uptime in days/hours/minutes. -/
def _fmt_uptime (seconds : ℕ) : String :=
  let days := seconds / 86400
  let rem := seconds % 86400
  let hours := rem / 3600
  let rem2 := rem % 3600
  let minutes := rem2 / 60
  if days > 0 then toString days ++ "d " ++ toString hours ++ "h " ++ toString minutes ++ "m"
  else if hours > 0 then toString hours ++ "h " ++ toString minutes ++ "m"
  else toString minutes ++ "m"

/-- One styled append to a `rich.text.Text`: the text and its style
(`""` for the default style). -/
structure Seg where
  text : String
  style : String
deriving DecidableEq

/-- A `rich.text.Text` as the ordered list of its styled appends. -/
abbrev RText := List Seg

/-- The glyph ramp used for sparklines. -/
def SPARK_CHARS : List Char := ['▁', '▂', '▃', '▄', '▅', '▆', '▇', '█']

/-- `_cpu_bar`: a colored CPU usage bar of `width` cells followed by the
numeric percentage.  The cell count `int(percent / 100 * width)` is
computed in IEEE-754 double precision exactly as CPython does: the
division and the multiplication (after converting the int `width` to a
double) each round their exact result to binary64. -/
def _cpu_bar (percent : ℚ) (width : Int := 20) : RText :=
  let filled := pyInt (fl64 (fl64 (percent / 100) * fl64 width))
  let empty := width - filled
  let color := if percent > 80 then "red" else if percent > 50 then "yellow" else "green"
  [⟨strMul "█" filled, color⟩, ⟨strMul "░" empty, "dim"⟩,
   ⟨" " ++ padLeft 5 (fmtFixed 1 percent) ++ "%", ""⟩]

/-- `_mem_bar`: a colored memory/swap/disk usage bar with size labels; the
cell count is computed in double precision exactly as in `_cpu_bar`. -/
def _mem_bar (percent : ℚ) (used total : Int) (width : Int := 20) : RText :=
  let filled := pyInt (fl64 (fl64 (percent / 100) * fl64 width))
  let empty := width - filled
  let color := if percent > 80 then "red" else if percent > 60 then "yellow" else "cyan"
  [⟨strMul "█" filled, color⟩, ⟨strMul "░" empty, "dim"⟩,
   ⟨" " ++ padLeft 5 (fmtFixed 1 percent) ++ "% (" ++ _fmt_bytes used ++ "/" ++
      _fmt_bytes total ++ ")", ""⟩]

/-- Python list subscription `l[i]`, which accepts negative indices counted
from the end and raises (here: `none`) when out of range. -/
def pySubscript (l : List Char) (i : Int) : Option Char :=
  let j := if i < 0 then i + l.length else i
  if 0 ≤ j then l.get? j.toNat else none

/-- The scale maximum used by `_sparkline` on a non-empty buffer
`v :: rest`: the caller-supplied max if any, else the buffer's own max;
a zero max is replaced by 1. -/
def sparkHi (maxVal : Option ℚ) (v : ℚ) (rest : List ℚ) : ℚ :=
  let hi := maxVal.getD (rest.foldl max v)
  if hi = 0 then 1 else hi

/-- The glyph chosen by `_sparkline` for each value, in order; `none` if a
subscript goes out of range (Python would raise `IndexError`). -/
def sparkChars (hi : ℚ) : List ℚ → Option (List Char)
  | [] => some []
  | v :: vs =>
    (pySubscript SPARK_CHARS
        (min (pyInt (v / hi * ((SPARK_CHARS.length : ℚ) - 1)))
          ((SPARK_CHARS.length : ℤ) - 1))).bind
      fun c => (sparkChars hi vs).map fun cs => c :: cs

/-- `_sparkline`: render a sparkline from a buffer of values.  Empty buffer
renders as empty text. -/
def _sparkline (values : List ℚ) (color : String := "dim") (maxVal : Option ℚ := none) :
    Option RText :=
  match values with
  | [] => some []
  | v :: rest =>
    let hi := sparkHi maxVal v rest
    (sparkChars hi (v :: rest)).map (fun cs => cs.map (fun c => (⟨c.toString, color⟩ : Seg)))

/-- The `cpu` section of a metric payload. -/
structure CpuInfo where
  percent_total : Option ℚ
  percent_per_cpu : Option (List ℚ)
  count : Option ℕ
  load_avg : Option (List ℚ)
deriving DecidableEq

/-- A `memory`/`swap`/`disk` section of a metric payload. -/
structure MemInfo where
  percent : Option ℚ
  used : Option Int
  total : Option Int
deriving DecidableEq

/-- The `net` section of a metric payload. -/
structure NetInfo where
  bytes_sent_rate : Option Int
  bytes_recv_rate : Option Int
deriving DecidableEq

/-- One entry of the `processes` list of a metric payload. -/
structure Proc where
  pid : Option Int
  username : Option String
  cpu_percent : Option ℚ
  memory_rss : Option Int
  status : Option String
  name : Option String
deriving DecidableEq

/-- A decoded metric payload (`m` in the source): every section may be
absent, in which case reads default to zero/empty. -/
structure Snapshot where
  hostname : Option String
  cpu : Option CpuInfo
  memory : Option MemInfo
  swap : Option MemInfo
  disk : Option MemInfo
  net : Option NetInfo
  uptime : Option ℕ
  processes : Option (List Proc)
deriving DecidableEq

/-- A `cpu` section with every field absent (`m.get("cpu", \x7b\x7d)`). -/
def emptyCpu : CpuInfo := ⟨none, none, none, none⟩

/-- A memory-like section with every field absent. -/
def emptyMem : MemInfo := ⟨none, none, none⟩

/-- A `net` section with every field absent. -/
def emptyNet : NetInfo := ⟨none, none⟩

/-- A payload with every section absent. -/
def emptySnap : Snapshot := ⟨none, none, none, none, none, none, none, none⟩

/-- `m.get("cpu", \x7b\x7d).get("percent_total", 0)`. -/
def cpuV (m : Snapshot) : ℚ := (m.cpu.bind CpuInfo.percent_total).getD 0

/-- `m.get("memory", \x7b\x7d).get("percent", 0)`. -/
def memV (m : Snapshot) : ℚ := (m.memory.bind MemInfo.percent).getD 0

/-- `m.get("net", \x7b\x7d).get("bytes_sent_rate", 0)`. -/
def sendV (m : Snapshot) : ℚ := (((m.net.bind NetInfo.bytes_sent_rate).getD 0 : Int) : ℚ)

/-- `m.get("net", \x7b\x7d).get("bytes_recv_rate", 0)`. -/
def recvV (m : Snapshot) : ℚ := (((m.net.bind NetInfo.bytes_recv_rate).getD 0 : Int) : ℚ)

/-- CPython `dict` lookup with a default, on the insertion-ordered
association-list model. -/
def dictGet {α : Type} : List (String × α) → String → α → α
  | [], _, d => d
  | (k', v) :: rest, k, d => if k' = k then v else dictGet rest k d

/-- CPython `dict` item assignment: replaces the value in place when the
key exists, else appends at the end (insertion order preserved). -/
def dictSet {α : Type} : List (String × α) → String → α → List (String × α)
  | [], k, v => [(k, v)]
  | (k', v') :: rest, k, v => if k' = k then (k, v) :: rest else (k', v') :: dictSet rest k v

/-- CPython `key in dict`. -/
def dictHasKey {α : Type} : List (String × α) → String → Bool
  | [], _ => false
  | (k', _) :: rest, k => k' = k || dictHasKey rest k

/-- The per-host history dict: metric name to buffer. -/
abbrev HostHist := List (String × List ℚ)

/-- The global `history_store`. -/
abbrev HistStore := List (String × HostHist)

/-- The global `metrics_store`. -/
abbrev Store := List (String × Snapshot)

/-- `HISTORY_LEN` from the source: ring-buffer capacity. -/
def HISTORY_LEN : ℕ := 30

/-- The last `n` elements of a list (all of the list when it is shorter). -/
def lastN {α : Type} (n : ℕ) (l : List α) : List α := l.drop (l.length - n)

/-- `deque(maxlen=n).append(v)`: append to the right, evicting from the
left beyond capacity. -/
def dequeAppend (n : ℕ) (d : List ℚ) (v : ℚ) : List ℚ := lastN n (d ++ [v])

/-- The freshly created buffer set for a host seen for the first time. -/
def newHostHist : HostHist :=
  [("cpu", []), ("mem", []), ("net_send", []), ("net_recv", [])]

/-- `_record_history`: record the four metric values of a payload into the
per-host ring buffers, creating the buffer set on first use. -/
def _record_history (hostname : String) (m : Snapshot) (hs : HistStore) : HistStore :=
  let hs1 := if dictHasKey hs hostname then hs else dictSet hs hostname newHostHist
  let h0 := dictGet hs1 hostname []
  let h1 := dictSet h0 "cpu" (dequeAppend HISTORY_LEN (dictGet h0 "cpu" []) (cpuV m))
  let h2 := dictSet h1 "mem" (dequeAppend HISTORY_LEN (dictGet h1 "mem" []) (memV m))
  let h3 := dictSet h2 "net_send" (dequeAppend HISTORY_LEN (dictGet h2 "net_send" []) (sendV m))
  let h4 := dictSet h3 "net_recv" (dequeAppend HISTORY_LEN (dictGet h3 "net_recv" []) (recvV m))
  dictSet hs1 hostname h4

/-- The history lookup pattern of the renderer:
`history_store.get(hostname, \x7b\x7d).get(metric, deque())`. -/
def historyGet (hs : HistStore) (host metric : String) : List ℚ :=
  dictGet (dictGet hs host []) metric []

/-- Iterated recording of the payloads of one host, oldest first
(the Ingestion Loop's repeated `_record_history(host, m)` calls). -/
def recordAll (h : String) (snaps : List Snapshot) : HistStore :=
  snaps.foldl (fun s m => _record_history h m s) []

/-- Iterated recording of (resolved hostname, payload) events, oldest
first, possibly interleaving several hosts. -/
def recordEvents (events : List (String × Snapshot)) : HistStore :=
  events.foldl (fun s e => _record_history e.1 e.2 s) []

/-- The `_on_metrics` event handler for a group `g`: resolve the reporting
hostname (payload-provided, falling back to the group name), store the
whole payload in `metrics_store`, then record history. -/
def _on_metrics (m : Snapshot) (g : String) (store : Store) (hs : HistStore) :
    Store × HistStore :=
  let host := m.hostname.getD g
  (dictSet store host m, _record_history host m hs)

/-- A payload differing from `emptySnap` only in its uptime, used to show
that nothing of the first payload survives the second `put`. -/
def snapA : Snapshot := ⟨none, none, none, none, none, none, some 5, none⟩

/-- The length in cells of the `i`-th styled segment of a rendered text. -/
def segLen (t : RText) (i : ℕ) : ℕ := ((t.get? i).map (fun s => s.text.length)).getD 0

/-! ### Panel rendering -/

/-- A `rich.table.Table` of process rows (each row a list of cells). -/
structure PTable where
  rows : List (List RText)
deriving DecidableEq

/-- One element appended to a panel's content group: a text line or the
process table. -/
inductive Content where
  | text : RText → Content
  | table : PTable → Content
deriving DecidableEq

/-- A `rich.panel.Panel`. -/
structure Panel where
  title : String
  content : List Content
  border_style : String
deriving DecidableEq

/-- One element of the dashboard's top-level `Group`. -/
inductive GroupItem where
  | text : RText → GroupItem
  | panel : Panel → GroupItem
deriving DecidableEq

/-- One row of the process table (`proc_table.add_row(...)`). -/
def procRow (p : Proc) : List RText :=
  let cpu_pct := p.cpu_percent.getD 0
  let cpu_style := if cpu_pct > 50 then "red" else if cpu_pct > 10 then "yellow" else ""
  [[⟨(p.pid.map toString).getD "", ""⟩],
   [⟨(p.username.getD "").take 10, ""⟩],
   [⟨fmtFixed 1 cpu_pct, cpu_style⟩],
   [⟨_fmt_bytes (p.memory_rss.getD 0), ""⟩],
   [⟨p.status.getD "", ""⟩],
   [⟨p.name.getD "", ""⟩]]

/-- The `load: ...` part of the CPU line. -/
def loadStr (load : List ℚ) : String :=
  if load.isEmpty then "?" else String.intercalate " " (load.map (fmtFixed 2))

/-- One per-core cell: separator, right-aligned core index, and a 10-cell
CPU bar. -/
def perCoreCell (j idx : ℕ) (pct : ℚ) : RText :=
  (if j > 0 then [(⟨"  ", ""⟩ : Seg)] else []) ++
    ((⟨padLeft 2 (toString idx) ++ ": ", ""⟩ : Seg) :: _cpu_bar pct 10)

/-- One row of up to four per-core bars starting at core index `i`. -/
def perCoreLine (per_cpu : List ℚ) (i : ℕ) : RText :=
  (⟨"     ", ""⟩ : Seg) ::
    (((per_cpu.drop i).take 4).enum.map (fun jp => perCoreCell jp.1 (i + jp.1) jp.2)).flatten

/-- All per-core rows (`for i in range(0, len(per_cpu), 4)`). -/
def perCoreRows (per_cpu : List ℚ) : List Content :=
  (List.range ((per_cpu.length + 3) / 4)).map (fun k => Content.text (perCoreLine per_cpu (4 * k)))

/-- The content lines of one host panel, given the three already-rendered
sparklines. -/
def hostContent (m : Snapshot) (cpuSpark memSpark netSpark : RText) : List Content :=
  let cpu := m.cpu.getD emptyCpu
  let mem := m.memory.getD emptyMem
  let swap := m.swap.getD emptyMem
  let disk := m.disk.getD emptyMem
  let net := m.net.getD emptyNet
  let uptime := m.uptime.getD 0
  let cores := match cpu.count with | some n => toString n | none => "?"
  let cpu_line : RText :=
    (⟨"CPU  ", "bold"⟩ : Seg) :: (_cpu_bar (cpu.percent_total.getD 0) 20 ++
      ((⟨"  ", ""⟩ : Seg) :: (cpuSpark ++
        [⟨"  " ++ cores ++ " cores  load: " ++ loadStr (cpu.load_avg.getD []), ""⟩])))
  let mem_line : RText :=
    (⟨"Mem  ", "bold"⟩ : Seg) ::
      (_mem_bar (mem.percent.getD 0) (mem.used.getD 0) (mem.total.getD 0) 20 ++
        ((⟨"  ", ""⟩ : Seg) :: memSpark))
  let swap_line : RText :=
    (⟨"Swap ", "bold"⟩ : Seg) ::
      _mem_bar (swap.percent.getD 0) (swap.used.getD 0) (swap.total.getD 0) 20
  let disk_line : RText :=
    (⟨"Disk ", "bold"⟩ : Seg) ::
      _mem_bar (disk.percent.getD 0) (disk.used.getD 0) (disk.total.getD 0) 20
  let net_line : RText :=
    (⟨"Net  ", "bold"⟩ : Seg) ::
      ((⟨"▲ " ++ _fmt_bytes (net.bytes_sent_rate.getD 0) ++ "/s  ▼ " ++
          _fmt_bytes (net.bytes_recv_rate.getD 0) ++ "/s  ", ""⟩ : Seg) :: netSpark)
  let up_line : RText := [⟨"Up   ", "bold"⟩, ⟨_fmt_uptime uptime, ""⟩]
  let procs := m.processes.getD []
  Content.text cpu_line :: (perCoreRows (cpu.percent_per_cpu.getD []) ++
    (Content.text mem_line :: Content.text swap_line :: Content.text disk_line ::
      Content.text net_line :: Content.text up_line ::
        (if procs.isEmpty then []
         else [Content.text [], Content.table ⟨(procs.take 15).map procRow⟩])))

/-- `render_host`: render a single host's metrics as a panel; `none` when a
sparkline raises (Python `IndexError`). -/
def render_host (hostname : String) (m : Snapshot) (history_store : HistStore) : Option Panel :=
  let h := dictGet history_store hostname []
  (_sparkline (dictGet h "cpu" []) "green" (some 100)).bind fun cpuSpark =>
    (_sparkline (dictGet h "mem" []) "cyan" (some 100)).bind fun memSpark =>
      (_sparkline (dictGet h "net_recv" []) "blue" none).map fun netSpark =>
        ⟨"[bold]" ++ hostname ++ "[/bold]", hostContent m cpuSpark memSpark netSpark, "blue"⟩

/-- The placeholder shown while the store is empty. -/
def waitingItem : GroupItem := GroupItem.text [⟨"Waiting for metrics...", "dim italic"⟩]

/-- Python `sorted` on hostnames (ascending lexicographic). -/
def sortStrs (l : List String) : List String := List.insertionSort (· ≤ ·) l

/-- The panel list built by the dashboard loop over the sorted hostnames. -/
def renderPanels (store : Store) (hist : HistStore) : List String → Option (List GroupItem)
  | [] => some []
  | h :: rest =>
    (render_host h (dictGet store h emptySnap) hist).bind fun p =>
      (renderPanels store hist rest).map fun items => GroupItem.panel p :: items

/-- `render_dashboard`: the waiting placeholder on an empty store, else one
panel per host in sorted hostname order. -/
def render_dashboard (store : Store) (hist : HistStore) : Option (List GroupItem) :=
  if store.isEmpty then some [waitingItem]
  else renderPanels store hist (sortStrs (store.map Prod.fst))

/-- The table carried by a content element, if it is one. -/
def tableOf : Content → Option PTable
  | Content.table t => some t
  | Content.text _ => none

/-- The process tables appearing in a panel's content, in order. -/
def contentTables (p : Panel) : List PTable := p.content.filterMap tableOf

/-- The title of a dashboard item (empty for the placeholder text). -/
def itemTitle : GroupItem → String
  | GroupItem.text _ => ""
  | GroupItem.panel p => p.title

/-- Whether a dashboard item is a host panel. -/
def isPanel : GroupItem → Prop
  | GroupItem.text _ => False
  | GroupItem.panel _ => True

/-- All values held anywhere in a history store are nonnegative (true of
every store the program builds from physical metric payloads). -/
def NonnegHist (hs : HistStore) : Prop :=
  ∀ p ∈ hs, ∀ mp ∈ p.2, ∀ v ∈ mp.2, 0 ≤ v

/-- The panel rendered for a fresh host with no history and an all-absent
payload. -/
def demoPanel : Panel := (render_host "h1" emptySnap []).getD ⟨"", [], ""⟩

/-! ### Association-list dictionary lemmas -/

theorem dictGet_set_self {α : Type} (d : List (String × α)) (k : String) (v dflt : α) :
    dictGet (dictSet d k v) k dflt = v := by
  induction d with
  | nil => simp [dictSet, dictGet]
  | cons p rest ih =>
    obtain ⟨k', v'⟩ := p
    by_cases h : k' = k
    · subst h; simp [dictSet, dictGet]
    · simp [dictSet, dictGet, h, ih]

theorem dictGet_set_ne {α : Type} (d : List (String × α)) (k k2 : String) (v : α) (dflt : α)
    (h : k2 ≠ k) : dictGet (dictSet d k v) k2 dflt = dictGet d k2 dflt := by
  induction d with
  | nil =>
    simp only [dictSet, dictGet]
    rw [if_neg fun hh => h hh.symm]
  | cons p rest ih =>
    obtain ⟨k', v'⟩ := p
    by_cases hk : k' = k
    · simp only [dictSet, if_pos hk, dictGet]
      rw [if_neg fun hh => h hh.symm, if_neg fun hh => h (hk.symm.trans hh).symm]
    · simp only [dictSet, if_neg hk]
      by_cases hk2 : k' = k2
      · simp [dictGet, hk2]
      · simp [dictGet, hk2, ih]

theorem dictGet_of_not_hasKey {α : Type} (d : List (String × α)) (k : String) (dflt : α)
    (h : dictHasKey d k = false) : dictGet d k dflt = dflt := by
  induction d with
  | nil => simp [dictGet]
  | cons p rest ih =>
    obtain ⟨k', v'⟩ := p
    simp only [dictHasKey, Bool.or_eq_false_iff, decide_eq_false_iff_not] at h
    simp [dictGet, h.1, ih h.2]

theorem dictHasKey_set_self {α : Type} (d : List (String × α)) (k : String) (v : α) :
    dictHasKey (dictSet d k v) k = true := by
  induction d with
  | nil => simp [dictSet, dictHasKey]
  | cons p rest ih =>
    obtain ⟨k', v'⟩ := p
    by_cases h : k' = k
    · subst h; simp [dictSet, dictHasKey]
    · simp [dictSet, dictHasKey, h, ih]

theorem dictGet_eq_dflt_or_mem {α : Type} (d : List (String × α)) (k : String) (dflt : α) :
    dictGet d k dflt = dflt ∨ ∃ v, (k, v) ∈ d ∧ dictGet d k dflt = v := by
  induction d with
  | nil => left; rfl
  | cons p rest ih =>
    obtain ⟨k', v'⟩ := p
    by_cases h : k' = k
    · subst h
      right; exact ⟨v', by simp [dictGet]⟩
    · rcases ih with h1 | ⟨v, hv, h2⟩
      · left; simpa [dictGet, h] using h1
      · right; exact ⟨v, by simp [hv], by simpa [dictGet, h] using h2⟩

/-! ### Ring-buffer (`deque(maxlen=N)`) lemmas -/

theorem lastN_of_le {α : Type} {n : ℕ} {l : List α} (h : l.length ≤ n) : lastN n l = l := by
  simp [lastN, Nat.sub_eq_zero_of_le h]

theorem length_lastN {α : Type} (n : ℕ) (l : List α) :
    (lastN n l).length = min n l.length := by
  simp [lastN]
  omega

theorem lastN_cons {α : Type} {n : ℕ} (x : α) {l : List α} (h : n ≤ l.length) :
    lastN n (x :: l) = lastN n l := by
  have h1 : (x :: l).length - n = (l.length - n) + 1 := by simp; omega
  rw [lastN, lastN, h1, List.drop_succ_cons]

theorem lastN_append_lastN {α : Type} (n : ℕ) (a b : List α) :
    lastN n (lastN n a ++ b) = lastN n (a ++ b) := by
  induction a with
  | nil => simp [lastN]
  | cons x a ih =>
    by_cases h : (x :: a).length ≤ n
    · rw [lastN_of_le h]
    · have h1 : n ≤ a.length := by simp at h; omega
      have h2 : n ≤ (a ++ b).length := by simp; omega
      rw [lastN_cons x h1, List.cons_append, lastN_cons x h2, ih]

theorem foldl_dequeAppend (n : ℕ) (vs : List ℚ) :
    ∀ d : List ℚ, d.length ≤ n → vs.foldl (dequeAppend n) d = lastN n (d ++ vs) := by
  induction vs with
  | nil => intro d h; simp [lastN_of_le h]
  | cons v vs ih =>
    intro d h
    have hlen : (dequeAppend n d v).length ≤ n := by
      rw [dequeAppend, length_lastN]; omega
    calc (v :: vs).foldl (dequeAppend n) d = vs.foldl (dequeAppend n) (dequeAppend n d v) := rfl
      _ = lastN n (dequeAppend n d v ++ vs) := ih _ hlen
      _ = lastN n ((d ++ [v]) ++ vs) := by rw [dequeAppend, lastN_append_lastN]
      _ = lastN n (d ++ v :: vs) := by simp

/-! ### `_record_history` step lemmas -/

theorem record_get_cpu (h : String) (m : Snapshot) (hs : HistStore) :
    historyGet (_record_history h m hs) h "cpu"
      = dequeAppend HISTORY_LEN (historyGet hs h "cpu") (cpuV m) := by
  have e1 : ("net_recv" : String) ≠ "cpu" := by decide
  have e2 : ("net_send" : String) ≠ "cpu" := by decide
  have e3 : ("mem" : String) ≠ "cpu" := by decide
  unfold _record_history historyGet
  by_cases hk : dictHasKey hs h
  · simp [hk, dictGet_set_self, dictGet_set_ne _ _ _ _ _ e1.symm,
      dictGet_set_ne _ _ _ _ _ e2.symm, dictGet_set_ne _ _ _ _ _ e3.symm]
  · simp only [hk, if_false, Bool.false_eq_true]
    rw [dictGet_of_not_hasKey hs h [] (by simpa using hk)]
    simp [dictGet_set_self, dictGet_set_ne _ _ _ _ _ e1.symm,
      dictGet_set_ne _ _ _ _ _ e2.symm, dictGet_set_ne _ _ _ _ _ e3.symm,
      newHostHist, dictGet]

theorem record_get_mem (h : String) (m : Snapshot) (hs : HistStore) :
    historyGet (_record_history h m hs) h "mem"
      = dequeAppend HISTORY_LEN (historyGet hs h "mem") (memV m) := by
  have e1 : ("net_recv" : String) ≠ "mem" := by decide
  have e2 : ("net_send" : String) ≠ "mem" := by decide
  have e3 : ("cpu" : String) ≠ "mem" := by decide
  unfold _record_history historyGet
  by_cases hk : dictHasKey hs h
  · simp [hk, dictGet_set_self, dictGet_set_ne _ _ _ _ _ e1.symm,
      dictGet_set_ne _ _ _ _ _ e2.symm, dictGet_set_ne _ _ _ _ _ e3.symm]
  · simp only [hk, if_false, Bool.false_eq_true]
    rw [dictGet_of_not_hasKey hs h [] (by simpa using hk)]
    simp [dictGet_set_self, dictGet_set_ne _ _ _ _ _ e1.symm,
      dictGet_set_ne _ _ _ _ _ e2.symm, dictGet_set_ne _ _ _ _ _ e3.symm,
      newHostHist, dictGet]

theorem record_get_net_send (h : String) (m : Snapshot) (hs : HistStore) :
    historyGet (_record_history h m hs) h "net_send"
      = dequeAppend HISTORY_LEN (historyGet hs h "net_send") (sendV m) := by
  have e1 : ("net_recv" : String) ≠ "net_send" := by decide
  have e2 : ("mem" : String) ≠ "net_send" := by decide
  have e3 : ("cpu" : String) ≠ "net_send" := by decide
  unfold _record_history historyGet
  by_cases hk : dictHasKey hs h
  · simp [hk, dictGet_set_self, dictGet_set_ne _ _ _ _ _ e1.symm,
      dictGet_set_ne _ _ _ _ _ e2.symm, dictGet_set_ne _ _ _ _ _ e3.symm]
  · simp only [hk, if_false, Bool.false_eq_true]
    rw [dictGet_of_not_hasKey hs h [] (by simpa using hk)]
    simp [dictGet_set_self, dictGet_set_ne _ _ _ _ _ e1.symm,
      dictGet_set_ne _ _ _ _ _ e2.symm, dictGet_set_ne _ _ _ _ _ e3.symm,
      newHostHist, dictGet]

theorem record_get_net_recv (h : String) (m : Snapshot) (hs : HistStore) :
    historyGet (_record_history h m hs) h "net_recv"
      = dequeAppend HISTORY_LEN (historyGet hs h "net_recv") (recvV m) := by
  have e1 : ("net_send" : String) ≠ "net_recv" := by decide
  have e2 : ("mem" : String) ≠ "net_recv" := by decide
  have e3 : ("cpu" : String) ≠ "net_recv" := by decide
  unfold _record_history historyGet
  by_cases hk : dictHasKey hs h
  · simp [hk, dictGet_set_self, dictGet_set_ne _ _ _ _ _ e1.symm,
      dictGet_set_ne _ _ _ _ _ e2.symm, dictGet_set_ne _ _ _ _ _ e3.symm]
  · simp only [hk, if_false, Bool.false_eq_true]
    rw [dictGet_of_not_hasKey hs h [] (by simpa using hk)]
    simp [dictGet_set_self, dictGet_set_ne _ _ _ _ _ e1.symm,
      dictGet_set_ne _ _ _ _ _ e2.symm, dictGet_set_ne _ _ _ _ _ e3.symm,
      newHostHist, dictGet]

theorem record_get_other_host (h h2 : String) (m : Snapshot) (hs : HistStore) (metric : String)
    (hne : h2 ≠ h) :
    historyGet (_record_history h m hs) h2 metric = historyGet hs h2 metric := by
  unfold _record_history historyGet
  by_cases hk : dictHasKey hs h
  · simp [hk, dictGet_set_ne _ _ _ _ _ hne]
  · simp only [hk, if_false, Bool.false_eq_true]
    rw [dictGet_set_ne _ _ _ _ _ hne, dictGet_set_ne _ _ _ _ _ hne]

theorem record_get_other_metric (h : String) (m : Snapshot) (hs : HistStore) (metric : String)
    (hm : metric ∉ (["cpu", "mem", "net_send", "net_recv"] : List String)) :
    historyGet (_record_history h m hs) h metric = historyGet hs h metric := by
  simp only [List.mem_cons, List.not_mem_nil, or_false, not_or] at hm
  obtain ⟨m1, m2, m3, m4⟩ := hm
  unfold _record_history historyGet
  by_cases hk : dictHasKey hs h
  · simp [hk, dictGet_set_self, dictGet_set_ne _ _ _ _ _ m1,
      dictGet_set_ne _ _ _ _ _ m2, dictGet_set_ne _ _ _ _ _ m3,
      dictGet_set_ne _ _ _ _ _ m4]
  · simp only [hk, if_false, Bool.false_eq_true]
    rw [dictGet_of_not_hasKey hs h [] (by simpa using hk)]
    simp [dictGet_set_self, dictGet_set_ne _ _ _ _ _ m1, dictGet_set_ne _ _ _ _ _ m2,
      dictGet_set_ne _ _ _ _ _ m3, dictGet_set_ne _ _ _ _ _ m4, newHostHist, dictGet,
      Ne.symm m1, Ne.symm m2, Ne.symm m3, Ne.symm m4]

theorem fold_record_get (h metric : String) (f : Snapshot → ℚ)
    (step : ∀ (m : Snapshot) (hs : HistStore), historyGet (_record_history h m hs) h metric
      = dequeAppend HISTORY_LEN (historyGet hs h metric) (f m)) :
    ∀ (snaps : List Snapshot) (hs0 : HistStore),
      historyGet (snaps.foldl (fun s m => _record_history h m s) hs0) h metric
        = (snaps.map f).foldl (dequeAppend HISTORY_LEN) (historyGet hs0 h metric) := by
  intro snaps
  induction snaps with
  | nil => intro hs0; rfl
  | cons m snaps ih =>
    intro hs0
    calc historyGet ((m :: snaps).foldl (fun s m => _record_history h m s) hs0) h metric
        = historyGet (snaps.foldl (fun s m => _record_history h m s) (_record_history h m hs0))
            h metric := rfl
      _ = (snaps.map f).foldl (dequeAppend HISTORY_LEN)
            (historyGet (_record_history h m hs0) h metric) := ih _
      _ = (snaps.map f).foldl (dequeAppend HISTORY_LEN)
            (dequeAppend HISTORY_LEN (historyGet hs0 h metric) (f m)) := by rw [step]
      _ = ((m :: snaps).map f).foldl (dequeAppend HISTORY_LEN)
            (historyGet hs0 h metric) := rfl

theorem recordAll_get (h metric : String) (f : Snapshot → ℚ) (snaps : List Snapshot)
    (step : ∀ (m : Snapshot) (hs : HistStore), historyGet (_record_history h m hs) h metric
      = dequeAppend HISTORY_LEN (historyGet hs h metric) (f m)) :
    historyGet (recordAll h snaps) h metric = lastN HISTORY_LEN (snaps.map f) := by
  rw [recordAll, fold_record_get h metric f step snaps []]
  have h0 : historyGet ([] : HistStore) h metric = [] := rfl
  rw [h0, foldl_dequeAppend HISTORY_LEN _ [] (by simp)]
  rfl

theorem length_dequeAppend (n : ℕ) (d : List ℚ) (v : ℚ) :
    (dequeAppend n d v).length = min n (d.length + 1) := by
  rw [dequeAppend, length_lastN]; simp

/-- C1: for every host and metric, the history ring buffer never holds more
than `HISTORY_LEN = 30` values; after `30 + k` `record` calls for one host
the buffer holds exactly the last 30 recorded values, oldest first (the
oldest value having been evicted on each append beyond capacity). -/
theorem C1_history_ring_buffer (h : String) (snaps : List Snapshot) :
    ((historyGet (recordAll h snaps) h "cpu").length ≤ HISTORY_LEN ∧
     (historyGet (recordAll h snaps) h "mem").length ≤ HISTORY_LEN ∧
     (historyGet (recordAll h snaps) h "net_send").length ≤ HISTORY_LEN ∧
     (historyGet (recordAll h snaps) h "net_recv").length ≤ HISTORY_LEN) ∧
    (∀ k : ℕ, snaps.length = HISTORY_LEN + k →
      historyGet (recordAll h snaps) h "cpu" = (snaps.map cpuV).drop k ∧
      historyGet (recordAll h snaps) h "mem" = (snaps.map memV).drop k ∧
      historyGet (recordAll h snaps) h "net_send" = (snaps.map sendV).drop k ∧
      historyGet (recordAll h snaps) h "net_recv" = (snaps.map recvV).drop k) := by
  have hc := recordAll_get h "cpu" cpuV snaps (fun m hs => record_get_cpu h m hs)
  have hm := recordAll_get h "mem" memV snaps (fun m hs => record_get_mem h m hs)
  have hs' := recordAll_get h "net_send" sendV snaps (fun m hs => record_get_net_send h m hs)
  have hr := recordAll_get h "net_recv" recvV snaps (fun m hs => record_get_net_recv h m hs)
  constructor
  · refine ⟨?_, ?_, ?_, ?_⟩ <;>
      simp only [hc, hm, hs', hr, length_lastN] <;> omega
  · intro k hk
    have hdrop : ∀ f : Snapshot → ℚ, lastN HISTORY_LEN (snaps.map f) = (snaps.map f).drop k := by
      intro f
      rw [lastN, List.length_map, hk]
      congr 1
      omega
    exact ⟨by rw [hc, hdrop], by rw [hm, hdrop], by rw [hs', hdrop], by rw [hr, hdrop]⟩

theorem C1_history_ring_buffer_witness :
    historyGet (recordAll "h1" (List.replicate 31 emptySnap)) "h1" "cpu"
        = ((List.replicate 31 emptySnap).map cpuV).drop 1 ∧
    historyGet (recordAll "h1" (List.replicate 31 emptySnap)) "h1" "mem"
        = ((List.replicate 31 emptySnap).map memV).drop 1 ∧
    historyGet (recordAll "h1" (List.replicate 31 emptySnap)) "h1" "net_send"
        = ((List.replicate 31 emptySnap).map sendV).drop 1 ∧
    historyGet (recordAll "h1" (List.replicate 31 emptySnap)) "h1" "net_recv"
        = ((List.replicate 31 emptySnap).map recvV).drop 1 :=
  (C1_history_ring_buffer "h1" (List.replicate 31 emptySnap)).2 1 (by simp [HISTORY_LEN])

/-- C7: recording a payload never fails whatever sections are absent: each
of the four extracted fields defaults to 0 when missing and is appended to
the corresponding ring buffer, the host's buffer set is created on first
use, and history lookups for an unknown host or metric yield an empty
trend rather than an error. -/
theorem C7_record_defaults_and_lookup (hs : HistStore) (h : String) (m : Snapshot) :
    (historyGet (_record_history h m hs) h "cpu"
        = dequeAppend HISTORY_LEN (historyGet hs h "cpu")
            ((m.cpu.bind CpuInfo.percent_total).getD 0)) ∧
    (historyGet (_record_history h m hs) h "mem"
        = dequeAppend HISTORY_LEN (historyGet hs h "mem")
            ((m.memory.bind MemInfo.percent).getD 0)) ∧
    (historyGet (_record_history h m hs) h "net_send"
        = dequeAppend HISTORY_LEN (historyGet hs h "net_send")
            (((m.net.bind NetInfo.bytes_sent_rate).getD 0 : Int) : ℚ)) ∧
    (historyGet (_record_history h m hs) h "net_recv"
        = dequeAppend HISTORY_LEN (historyGet hs h "net_recv")
            (((m.net.bind NetInfo.bytes_recv_rate).getD 0 : Int) : ℚ)) ∧
    dictHasKey (_record_history h m hs) h = true ∧
    (∀ host metric : String, dictHasKey hs host = false → historyGet hs host metric = []) ∧
    (∀ metric : String, metric ∉ (["cpu", "mem", "net_send", "net_recv"] : List String) →
      historyGet (_record_history h m ([] : HistStore)) h metric = []) := by
  refine ⟨record_get_cpu h m hs, record_get_mem h m hs, record_get_net_send h m hs,
    record_get_net_recv h m hs, ?_, ?_, ?_⟩
  · unfold _record_history
    exact dictHasKey_set_self _ h _
  · intro host metric hfalse
    unfold historyGet
    rw [dictGet_of_not_hasKey _ _ _ hfalse]
    rfl
  · intro metric hm
    rw [record_get_other_metric h m [] metric hm]
    rfl

theorem C7_record_defaults_and_lookup_witness :
    historyGet ([] : HistStore) "unknown" "cpu" = [] :=
  (C7_record_defaults_and_lookup [] "h1" emptySnap).2.2.2.2.2.1 "unknown" "cpu" rfl

theorem record_preserves_eq_lengths (h : String) (m : Snapshot) (hs : HistStore)
    (ih : ∀ host : String,
      (historyGet hs host "cpu").length = (historyGet hs host "mem").length ∧
      (historyGet hs host "cpu").length = (historyGet hs host "net_send").length ∧
      (historyGet hs host "cpu").length = (historyGet hs host "net_recv").length) :
    ∀ host : String,
      (historyGet (_record_history h m hs) host "cpu").length
        = (historyGet (_record_history h m hs) host "mem").length ∧
      (historyGet (_record_history h m hs) host "cpu").length
        = (historyGet (_record_history h m hs) host "net_send").length ∧
      (historyGet (_record_history h m hs) host "cpu").length
        = (historyGet (_record_history h m hs) host "net_recv").length := by
  intro host
  by_cases hh : host = h
  · subst hh
    obtain ⟨e1, e2, e3⟩ := ih host
    rw [record_get_cpu, record_get_mem, record_get_net_send, record_get_net_recv,
      length_dequeAppend, length_dequeAppend, length_dequeAppend, length_dequeAppend]
    omega
  · rw [record_get_other_host h host m hs "cpu" hh, record_get_other_host h host m hs "mem" hh,
      record_get_other_host h host m hs "net_send" hh,
      record_get_other_host h host m hs "net_recv" hh]
    exact ih host

/-- C10: after any interleaved sequence of record calls, each host's four
ring buffers (cpu, mem, net_send, net_recv) have equal length, because
every record appends exactly one value to each of the four buffers of its
host and the buffer set is created with all four buffers empty. -/
theorem C10_equal_buffer_lengths (events : List (String × Snapshot)) (host : String) :
    (historyGet (recordEvents events) host "cpu").length
      = (historyGet (recordEvents events) host "mem").length ∧
    (historyGet (recordEvents events) host "cpu").length
      = (historyGet (recordEvents events) host "net_send").length ∧
    (historyGet (recordEvents events) host "cpu").length
      = (historyGet (recordEvents events) host "net_recv").length := by
  suffices hgen : ∀ (evs : List (String × Snapshot)) (hs0 : HistStore),
      (∀ host : String,
        (historyGet hs0 host "cpu").length = (historyGet hs0 host "mem").length ∧
        (historyGet hs0 host "cpu").length = (historyGet hs0 host "net_send").length ∧
        (historyGet hs0 host "cpu").length = (historyGet hs0 host "net_recv").length) →
      ∀ host : String,
        (historyGet (evs.foldl (fun s e => _record_history e.1 e.2 s) hs0) host "cpu").length
          = (historyGet (evs.foldl (fun s e => _record_history e.1 e.2 s) hs0) host "mem").length ∧
        (historyGet (evs.foldl (fun s e => _record_history e.1 e.2 s) hs0) host "cpu").length
          = (historyGet (evs.foldl (fun s e => _record_history e.1 e.2 s) hs0) host
              "net_send").length ∧
        (historyGet (evs.foldl (fun s e => _record_history e.1 e.2 s) hs0) host "cpu").length
          = (historyGet (evs.foldl (fun s e => _record_history e.1 e.2 s) hs0) host
              "net_recv").length by
    exact hgen events [] (fun host => by simp [historyGet, dictGet]) host
  intro evs
  induction evs with
  | nil => intro hs0 h0 host; exact h0 host
  | cons e evs ih =>
    intro hs0 h0 host
    exact ih (_record_history e.1 e.2 hs0) (record_preserves_eq_lengths e.1 e.2 hs0 h0) host

/-- C3: the store update is an unconditional whole-payload overwrite:
after `put(h, snapA)` then `put(h, snapB)` the store holds exactly `snapB`
for `h` (no field taken from `snapA`), and every other host's entry is
unchanged. -/
theorem C3_put_overwrites (store : Store) (hs : HistStore) (g : String) (a b : Snapshot)
    (h : String) (ha : a.hostname.getD g = h) (hb : b.hostname.getD g = h) :
    (∀ d : Snapshot,
      dictGet (_on_metrics b g (_on_metrics a g store hs).1 (_on_metrics a g store hs).2).1 h d
        = b) ∧
    (∀ (h2 : String) (d : Snapshot), h2 ≠ h →
      dictGet (_on_metrics b g (_on_metrics a g store hs).1 (_on_metrics a g store hs).2).1 h2 d
        = dictGet store h2 d) := by
  have hfst : (_on_metrics a g store hs).1 = dictSet store h a := by
    rw [_on_metrics, ha]
  have hfst2 : ∀ hs2 : HistStore, (_on_metrics b g (dictSet store h a) hs2).1
      = dictSet (dictSet store h a) h b := by
    intro hs2; rw [_on_metrics, hb]
  rw [hfst, hfst2]
  constructor
  · intro d
    exact dictGet_set_self _ h b d
  · intro h2 d hne
    rw [dictGet_set_ne _ _ _ _ _ hne, dictGet_set_ne _ _ _ _ _ hne]

theorem C3_put_overwrites_witness :
    dictGet (_on_metrics emptySnap "g" (_on_metrics snapA "g" ([] : Store) []).1
        (_on_metrics snapA "g" ([] : Store) []).2).1 "g" snapA = emptySnap :=
  (C3_put_overwrites [] [] "g" snapA emptySnap "g" rfl rfl).1 snapA

/-! ### Formatting claims -/

/-- C9: uptime formats as "(d)d (h)h (m)m" when there are whole days,
"(h)h (m)m" when only whole hours, and "(m)m" otherwise, with the standard
day/hour/minute decomposition; in particular 65 s is "1m", 3661 s is
"1h 1m" and 90061 s is "1d 1h 1m". -/
theorem C9_uptime_format (s : ℕ) :
    (_fmt_uptime s =
      if 0 < s / 86400 then
        toString (s / 86400) ++ "d " ++ toString (s / 3600 % 24) ++ "h " ++
          toString (s / 60 % 60) ++ "m"
      else if 0 < s / 3600 then
        toString (s / 3600) ++ "h " ++ toString (s / 60 % 60) ++ "m"
      else toString (s / 60) ++ "m") ∧
    _fmt_uptime 65 = "1m" ∧ _fmt_uptime 3661 = "1h 1m" ∧ _fmt_uptime 90061 = "1d 1h 1m" := by
  refine ⟨?_, by decide, by decide, by decide⟩
  simp only [_fmt_uptime]
  have h1 : s % 86400 / 3600 = s / 3600 % 24 := by omega
  have h2 : s % 86400 % 3600 / 60 = s / 60 % 60 := by omega
  by_cases hd : 0 < s / 86400
  · rw [if_pos hd, if_pos hd, h1, h2]
  · rw [if_neg hd, if_neg hd]
    have hs' : s % 86400 = s := by omega
    rw [hs']
    by_cases hh : 0 < s / 3600
    · have h3 : s % 3600 / 60 = s / 60 % 60 := by omega
      rw [if_pos hh, if_pos hh, h3]
    · have h4 : s % 3600 / 60 = s / 60 := by omega
      rw [if_neg hh, if_neg hh, h4]

theorem roundHalfEven_intCast (n : ℤ) : roundHalfEven ((n : ℤ) : ℚ) = n := by
  unfold roundHalfEven
  norm_num

theorem fmtFixed_eval (prec : ℕ) (q : ℚ) (n : ℤ) (h : q * ((10 ^ prec : ℕ) : ℚ) = (n : ℚ)) :
    fmtFixed prec q = (if n < 0 then "-" else "") ++ toString (n.natAbs / 10 ^ prec) ++ "." ++
      zeroPad prec (n.natAbs % 10 ^ prec) := by
  simp only [fmtFixed]
  rw [h, roundHalfEven_intCast]

/-- C5: byte formatting scales through the units by dividing by 1024 while
the magnitude is at least 1024, rendering one decimal place except for
whole-number byte counts (printed as plain integers with unit `B`); in
particular 0 gives "0B", 1536 gives "1.5KB" and 1024^4 gives "1.0TB". -/
theorem C5_fmt_bytes :
    _fmt_bytes 0 = "0B" ∧ _fmt_bytes 1536 = "1.5KB" ∧ _fmt_bytes (1024 ^ 4) = "1.0TB" ∧
    (∀ n : ℤ, |n| < 1024 → _fmt_bytes n = toString n ++ "B") ∧
    (∀ (q : ℚ) (u : String) (us : List String), ¬|q| < 1024 →
      fmtBytesAux (u :: us) q = fmtBytesAux us (q / 1024)) ∧
    (∀ (q : ℚ) (u : String) (us : List String), |q| < 1024 →
      fmtBytesAux (u :: us) q = fmtFixed 1 q ++ u) := by
  have habs : ∀ q : ℚ, 0 ≤ q → q < 1024 → |q| < 1024 := by
    intro q hq hlt; rwa [abs_of_nonneg hq]
  have habs' : ∀ q : ℚ, 1024 ≤ q → ¬|q| < 1024 := by
    intro q hq
    rw [abs_of_nonneg (le_trans (by norm_num) hq)]
    exact not_lt.2 hq
  refine ⟨by decide, ?_, ?_, ?_, ?_, ?_⟩
  · rw [_fmt_bytes, if_neg (by decide)]
    rw [show ((1536 : ℤ) : ℚ) / 1024 = 3 / 2 by norm_num]
    simp only [fmtBytesAux]
    rw [if_pos (habs _ (by norm_num) (by norm_num))]
    rw [fmtFixed_eval 1 (3 / 2 : ℚ) 15 (by norm_num)]
    decide
  · rw [_fmt_bytes, if_neg (by decide)]
    rw [show ((1024 ^ 4 : ℤ) : ℚ) / 1024 = 1024 ^ 3 by norm_num]
    simp only [fmtBytesAux]
    rw [if_neg (habs' _ (by norm_num)),
      show (1024 ^ 3 : ℚ) / 1024 = 1024 ^ 2 by norm_num]
    rw [if_neg (habs' _ (by norm_num)),
      show (1024 ^ 2 : ℚ) / 1024 = 1024 by norm_num]
    rw [if_neg (habs' _ (by norm_num)),
      show (1024 : ℚ) / 1024 = 1 by norm_num]
    rw [if_pos (habs _ (by norm_num) (by norm_num))]
    rw [fmtFixed_eval 1 (1 : ℚ) 10 (by norm_num)]
    decide
  · intro n h
    rw [_fmt_bytes, if_pos h]
  · intro q u us h
    simp only [fmtBytesAux, if_neg h]
  · intro q u us h
    simp only [fmtBytesAux, if_pos h]

theorem C5_fmt_bytes_witness : _fmt_bytes 7 = toString (7 : ℤ) ++ "B" :=
  C5_fmt_bytes.2.2.2.1 7 (by decide)

theorem strMulAux_length (s : String) (n : ℕ) : (strMulAux s n).length = n * s.length := by
  induction n with
  | zero => simp [strMulAux]
  | succ n ih =>
    simp only [strMulAux, String.length_append, ih]
    ring

theorem strMul_length (s : String) (n : ℤ) : (strMul s n).length = n.toNat * s.length :=
  strMulAux_length s n.toNat

theorem roundHalfEven_nonneg {y : ℚ} (h : 0 ≤ y) : 0 ≤ roundHalfEven y := by
  have hf : 0 ≤ ⌊y⌋ := Int.floor_nonneg.2 h
  simp only [roundHalfEven]
  split_ifs <;> omega

theorem roundHalfEven_le_int {y : ℚ} {k : ℤ} (h : y ≤ (k : ℚ)) : roundHalfEven y ≤ k := by
  have hf : ⌊y⌋ ≤ k := by
    calc ⌊y⌋ ≤ ⌊(k : ℚ)⌋ := Int.floor_le_floor h
      _ = k := Int.floor_intCast k
  simp only [roundHalfEven]
  split_ifs with h1 h2 h3
  · exact hf
  · have hhalf : (⌊y⌋ : ℚ) + 1 / 2 ≤ (k : ℚ) := by linarith
    have : (⌊y⌋ : ℚ) < (k : ℚ) := by linarith
    have : ⌊y⌋ < k := by exact_mod_cast this
    omega
  · exact hf
  · have hge : (1 : ℚ) / 2 ≤ y - ⌊y⌋ := not_lt.1 h1
    have : (⌊y⌋ : ℚ) < (k : ℚ) := by linarith
    have : ⌊y⌋ < k := by exact_mod_cast this
    omega

theorem roundHalfEven_eq_of {y : ℚ} {n : ℤ} (h1 : (n : ℚ) ≤ y) (h2 : y < (n : ℚ) + 1 / 2) :
    roundHalfEven y = n := by
  have hf : ⌊y⌋ = n := Int.floor_eq_iff.2 ⟨h1, by linarith⟩
  unfold roundHalfEven
  rw [hf, if_pos (by linarith)]

theorem Int_log_two_eq {x : ℚ} {e : ℤ} (hx : 0 < x) (h1 : (2 : ℚ) ^ e ≤ x)
    (h2 : x < (2 : ℚ) ^ (e + 1)) : Int.log 2 x = e := by
  have ha : e ≤ Int.log 2 x := (Int.zpow_le_iff_le_log (by norm_num) hx).1 (by exact_mod_cast h1)
  have hb : Int.log 2 x < e + 1 :=
    (Int.lt_zpow_iff_log_lt (by norm_num) hx).1 (by exact_mod_cast h2)
  omega

theorem fl64_eval {x : ℚ} {e : ℤ} (hx : 0 < x) (h1 : (2 : ℚ) ^ e ≤ x)
    (h2 : x < (2 : ℚ) ^ (e + 1)) (he : -1022 ≤ e) {n : ℤ}
    (hn : roundHalfEven (x / (2 : ℚ) ^ (e - 52)) = n) :
    fl64 x = (n : ℚ) * (2 : ℚ) ^ (e - 52) := by
  simp only [fl64]
  rw [if_neg (ne_of_gt hx), abs_of_pos hx, Int_log_two_eq hx h1 h2,
    max_eq_left (by omega : (-1074 : ℤ) ≤ e - 52), if_neg (not_lt.2 hx.le), hn]
  ring

theorem fl64_nonneg {x : ℚ} (h : 0 ≤ x) : 0 ≤ fl64 x := by
  rcases eq_or_lt_of_le h with heq | hpos
  · simp [fl64, ← heq]
  · simp only [fl64]
    rw [if_neg (ne_of_gt hpos), abs_of_pos hpos, if_neg (not_lt.2 hpos.le), one_mul]
    have hr : (0 : ℚ) ≤
        (roundHalfEven (x / 2 ^ max (Int.log 2 x - 52) (-1074)) : ℚ) := by
      exact_mod_cast roundHalfEven_nonneg (by positivity)
    exact mul_nonneg hr (by positivity)

theorem fl64_le_int {x : ℚ} {k : ℤ} (hk1 : 1 ≤ k) (hk : k ≤ 2 ^ 53) (hx0 : 0 ≤ x)
    (hxk : x ≤ (k : ℚ)) : fl64 x ≤ (k : ℚ) := by
  rcases eq_or_lt_of_le hx0 with heq | hpos
  · have hk0 : (0 : ℚ) ≤ (k : ℚ) := by exact_mod_cast (by omega : (0 : ℤ) ≤ k)
    simpa [fl64, ← heq] using hk0
  · have hle : (2 : ℚ) ^ Int.log 2 x ≤ x := by
      exact_mod_cast Int.zpow_log_le_self (b := 2) (by norm_num) hpos
    have hlt : x < (2 : ℚ) ^ (Int.log 2 x + 1) := by
      exact_mod_cast Int.lt_zpow_succ_log_self (b := 2) (by norm_num) x
    have hk' : (k : ℚ) ≤ (2 : ℚ) ^ (53 : ℤ) := by
      have h1 : ((k : ℤ) : ℚ) ≤ ((2 ^ 53 : ℤ) : ℚ) := by exact_mod_cast hk
      calc (k : ℚ) ≤ ((2 ^ 53 : ℤ) : ℚ) := h1
        _ = (2 : ℚ) ^ (53 : ℤ) := by norm_num
    have he53 : Int.log 2 x ≤ 53 := by
      by_contra hcon
      push_neg at hcon
      have hm : (2 : ℚ) ^ (54 : ℤ) ≤ (2 : ℚ) ^ Int.log 2 x :=
        zpow_le_zpow_right₀ (by norm_num) (by omega)
      have habs : (2 : ℚ) ^ (54 : ℤ) ≤ (2 : ℚ) ^ (53 : ℤ) :=
        le_trans hm (le_trans hle (le_trans hxk hk'))
      norm_num at habs
    rcases lt_or_eq_of_le he53 with he52 | he53eq
    · set e := Int.log 2 x with hedef
      set q := max (e - 52) (-1074) with hqdef
      have hq0 : q ≤ 0 := max_le (by omega) (by norm_num)
      have hqpos : (0 : ℚ) < 2 ^ q := by positivity
      have hB : ((k * 2 ^ (-q).toNat : ℤ) : ℚ) = (k : ℚ) / 2 ^ q := by
        push_cast
        rw [← zpow_natCast (2 : ℚ) (-q).toNat, Int.toNat_of_nonneg (by omega : (0 : ℤ) ≤ -q),
          zpow_neg, div_eq_mul_inv]
      have hyB : x / 2 ^ q ≤ ((k * 2 ^ (-q).toNat : ℤ) : ℚ) := by
        rw [hB]
        exact div_le_div_of_nonneg_right hxk hqpos.le
      have hround := roundHalfEven_le_int hyB
      simp only [fl64]
      rw [if_neg (ne_of_gt hpos), abs_of_pos hpos, if_neg (not_lt.2 hpos.le), one_mul,
        ← hedef, ← hqdef]
      calc (roundHalfEven (x / 2 ^ q) : ℚ) * 2 ^ q
          ≤ ((k * 2 ^ (-q).toNat : ℤ) : ℚ) * 2 ^ q :=
            mul_le_mul_of_nonneg_right (by exact_mod_cast hround) hqpos.le
        _ = (k : ℚ) := by
            rw [hB, div_mul_cancel₀ _ (ne_of_gt hqpos)]
    · have hx53 : x = (2 : ℚ) ^ (53 : ℤ) := by
        have hup : x ≤ (2 : ℚ) ^ (53 : ℤ) := le_trans hxk hk'
        have hdn : (2 : ℚ) ^ (53 : ℤ) ≤ x := by rw [he53eq] at hle; exact hle
        exact le_antisymm hup hdn
      have hkeq : (k : ℚ) = (2 : ℚ) ^ (53 : ℤ) :=
        le_antisymm hk' (hx53 ▸ hxk)
      have hev : fl64 ((2 : ℚ) ^ (53 : ℤ)) = (2 : ℚ) ^ (53 : ℤ) := by
        have harg : (2 : ℚ) ^ (53 : ℤ) / (2 : ℚ) ^ ((53 : ℤ) - 52) = ((2 ^ 52 : ℤ) : ℚ) := by
          norm_num
        have hn : roundHalfEven ((2 : ℚ) ^ (53 : ℤ) / (2 : ℚ) ^ ((53 : ℤ) - 52))
            = (2 ^ 52 : ℤ) := by
          rw [harg, roundHalfEven_intCast]
        calc fl64 ((2 : ℚ) ^ (53 : ℤ))
            = ((2 ^ 52 : ℤ) : ℚ) * (2 : ℚ) ^ ((53 : ℤ) - 52) :=
              fl64_eval (by positivity) (le_refl _) (by norm_num) (by norm_num) hn
          _ = (2 : ℚ) ^ (53 : ℤ) := by norm_num
      rw [hx53, hev, hkeq]

theorem fl64_intCast {n : ℤ} (h0 : 0 ≤ n) (h53 : n ≤ 2 ^ 53) :
    fl64 ((n : ℤ) : ℚ) = ((n : ℤ) : ℚ) := by
  rcases eq_or_lt_of_le h0 with heq | hpos
  · simp [fl64, ← heq]
  · have hposq : (0 : ℚ) < ((n : ℤ) : ℚ) := by exact_mod_cast hpos
    have hle : (2 : ℚ) ^ Int.log 2 ((n : ℤ) : ℚ) ≤ ((n : ℤ) : ℚ) := by
      exact_mod_cast Int.zpow_log_le_self (b := 2) (by norm_num) hposq
    have hlt : ((n : ℤ) : ℚ) < (2 : ℚ) ^ (Int.log 2 ((n : ℤ) : ℚ) + 1) := by
      exact_mod_cast Int.lt_zpow_succ_log_self (b := 2) (by norm_num) ((n : ℤ) : ℚ)
    have he0 : 0 ≤ Int.log 2 ((n : ℤ) : ℚ) := by
      have h1 : (1 : ℚ) ≤ ((n : ℤ) : ℚ) := by exact_mod_cast hpos
      have := (Int.zpow_le_iff_le_log (b := 2) (x := 0) (by norm_num) hposq).1
        (by simpa using h1)
      exact this
    have hk' : ((n : ℤ) : ℚ) ≤ (2 : ℚ) ^ (53 : ℤ) := by
      have h1 : ((n : ℤ) : ℚ) ≤ ((2 ^ 53 : ℤ) : ℚ) := by exact_mod_cast h53
      calc ((n : ℤ) : ℚ) ≤ ((2 ^ 53 : ℤ) : ℚ) := h1
        _ = (2 : ℚ) ^ (53 : ℤ) := by norm_num
    have he53 : Int.log 2 ((n : ℤ) : ℚ) ≤ 53 := by
      by_contra hcon
      push_neg at hcon
      have hm : (2 : ℚ) ^ (54 : ℤ) ≤ (2 : ℚ) ^ Int.log 2 ((n : ℤ) : ℚ) :=
        zpow_le_zpow_right₀ (by norm_num) (by omega)
      have habs : (2 : ℚ) ^ (54 : ℤ) ≤ (2 : ℚ) ^ (53 : ℤ) :=
        le_trans hm (le_trans hle hk')
      norm_num at habs
    rcases lt_or_eq_of_le he53 with he52 | he53eq
    · set e := Int.log 2 ((n : ℤ) : ℚ) with hedef
      have hq : max (e - 52) (-1074) = e - 52 := max_eq_left (by omega)
      have hm : ((n * 2 ^ (-(e - 52)).toNat : ℤ) : ℚ) = ((n : ℤ) : ℚ) / 2 ^ (e - 52) := by
        push_cast
        rw [← zpow_natCast (2 : ℚ) (-(e - 52)).toNat,
          Int.toNat_of_nonneg (by omega : (0 : ℤ) ≤ -(e - 52)), zpow_neg, div_eq_mul_inv]
      have hn : roundHalfEven (((n : ℤ) : ℚ) / (2 : ℚ) ^ (e - 52))
          = n * 2 ^ (-(e - 52)).toNat := by
        rw [show ((n : ℤ) : ℚ) / (2 : ℚ) ^ (e - 52) = ((n * 2 ^ (-(e - 52)).toNat : ℤ) : ℚ)
          from hm.symm, roundHalfEven_intCast]
      calc fl64 ((n : ℤ) : ℚ)
          = ((n * 2 ^ (-(e - 52)).toNat : ℤ) : ℚ) * (2 : ℚ) ^ (e - 52) :=
            fl64_eval hposq hle (by simpa using hlt) (by omega) hn
        _ = ((n : ℤ) : ℚ) := by
            rw [hm, div_mul_cancel₀ _ (by positivity : ((2 : ℚ) ^ (e - 52)) ≠ 0)]
    · have hx53 : ((n : ℤ) : ℚ) = (2 : ℚ) ^ (53 : ℤ) := by
        have hdn : (2 : ℚ) ^ (53 : ℤ) ≤ ((n : ℤ) : ℚ) := by rw [he53eq] at hle; exact hle
        exact le_antisymm hk' hdn
      rw [hx53]
      have harg : (2 : ℚ) ^ (53 : ℤ) / (2 : ℚ) ^ ((53 : ℤ) - 52) = ((2 ^ 52 : ℤ) : ℚ) := by
        norm_num
      have hn : roundHalfEven ((2 : ℚ) ^ (53 : ℤ) / (2 : ℚ) ^ ((53 : ℤ) - 52))
          = (2 ^ 52 : ℤ) := by
        rw [harg, roundHalfEven_intCast]
      calc fl64 ((2 : ℚ) ^ (53 : ℤ))
          = ((2 ^ 52 : ℤ) : ℚ) * (2 : ℚ) ^ ((53 : ℤ) - 52) :=
            fl64_eval (by positivity) (le_refl _) (by norm_num) (by norm_num) hn
        _ = (2 : ℚ) ^ (53 : ℤ) := by norm_num

/-- The claim's exact floor law fails on the program's double-precision
arithmetic: at percent 58 and width 50 the bar fills 28 cells although
`floor(58 / 100 * 50) = 29` (CPython: `int(58 / 100 * 50) == 28`, because
`58 / 100` rounds to `5224175567749775 * 2 ^ -53 < 0.58` and the product
then rounds to just below 29). -/
theorem C4_cpu_bar_counterexample :
    ((segLen (_cpu_bar (58 : ℚ) (50 : ℤ)) 0 : ℤ) ≠ ⌊(58 : ℚ) / 100 * (50 : ℚ)⌋) ∧
    (segLen (_cpu_bar (58 : ℚ) (50 : ℤ)) 0 : ℤ) = 28 ∧
    ⌊(58 : ℚ) / 100 * (50 : ℚ)⌋ = 29 := by
  have hfloor : ⌊(58 : ℚ) / 100 * (50 : ℚ)⌋ = 29 := by norm_num
  have hd : fl64 ((58 : ℚ) / 100) = 5224175567749775 / 9007199254740992 := by
    have hn : roundHalfEven ((58 : ℚ) / 100 / (2 : ℚ) ^ ((-1 : ℤ) - 52))
        = 5224175567749775 := by
      have harg : (58 : ℚ) / 100 / (2 : ℚ) ^ ((-1 : ℤ) - 52) = 261208778387488768 / 50 := by
        norm_num [zpow_neg]
      rw [harg]
      exact roundHalfEven_eq_of (by norm_num) (by norm_num)
    calc fl64 ((58 : ℚ) / 100)
        = ((5224175567749775 : ℤ) : ℚ) * (2 : ℚ) ^ ((-1 : ℤ) - 52) :=
          fl64_eval (by norm_num) (by norm_num [zpow_neg]) (by norm_num) (by norm_num) hn
      _ = 5224175567749775 / 9007199254740992 := by norm_num [zpow_neg]
  have hw50 : fl64 (50 : ℚ) = (50 : ℚ) := by
    have := fl64_intCast (n := 50) (by norm_num) (by norm_num)
    simpa using this
  have hv : fl64 (5224175567749775 / 9007199254740992 * (50 : ℚ))
      = 8162774324609023 / 281474976710656 := by
    have hval : (5224175567749775 / 9007199254740992 : ℚ) * (50 : ℚ)
        = 261208778387488750 / 9007199254740992 := by norm_num
    rw [hval]
    have hn : roundHalfEven ((261208778387488750 / 9007199254740992 : ℚ)
        / (2 : ℚ) ^ ((4 : ℤ) - 52)) = 8162774324609023 := by
      have harg : (261208778387488750 / 9007199254740992 : ℚ) / (2 : ℚ) ^ ((4 : ℤ) - 52)
          = 261208778387488750 / 32 := by norm_num [zpow_neg]
      rw [harg]
      exact roundHalfEven_eq_of (by norm_num) (by norm_num)
    calc fl64 (261208778387488750 / 9007199254740992 : ℚ)
        = ((8162774324609023 : ℤ) : ℚ) * (2 : ℚ) ^ ((4 : ℤ) - 52) :=
          fl64_eval (by norm_num) (by norm_num [zpow_neg]) (by norm_num [zpow_neg])
            (by norm_num) hn
      _ = 8162774324609023 / 281474976710656 := by norm_num [zpow_neg]
  have hfilled : pyInt (fl64 (fl64 ((58 : ℚ) / 100) * fl64 (50 : ℚ))) = 28 := by
    rw [hd, hw50, hv]
    rw [pyInt, if_pos (by norm_num)]
    norm_num
  have hb : ("█" : String).length = 1 := by decide
  have hseg : (segLen (_cpu_bar (58 : ℚ) (50 : ℤ)) 0 : ℤ) = 28 := by
    simp [_cpu_bar, segLen, strMul_length, hb, hfilled]
  exact ⟨by rw [hseg, hfloor]; norm_num, hseg, hfloor⟩

/-- C4 (amended): for percent `p` in `[0, 100]` and width `W ≤ 2^53`, the
CPU bar's filled cell count equals the truncation of the double-precision
computation `int(fl64(fl64(p / 100) * fl64 W))` — which can differ from
the exact `floor(p / 100 * W)`, as at `p = 58, W = 50` where the program
fills 28 cells though the exact floor is 29 — and the filled and empty
cells always sum to exactly `W`. -/
theorem C4_cpu_bar_float (p : ℚ) (h0 : 0 ≤ p) (h100 : p ≤ 100) (W : ℕ)
    (hW : (W : ℤ) ≤ 2 ^ 53) :
    (segLen (_cpu_bar p (W : ℤ)) 0 : ℤ)
      = pyInt (fl64 (fl64 (p / 100) * fl64 ((W : ℤ) : ℚ))) ∧
    segLen (_cpu_bar p (W : ℤ)) 0 + segLen (_cpu_bar p (W : ℤ)) 1 = W := by
  have hd0 : 0 ≤ fl64 (p / 100) := fl64_nonneg (by positivity)
  have hd1 : fl64 (p / 100) ≤ (1 : ℚ) := by
    have h1 : p / 100 ≤ ((1 : ℤ) : ℚ) := by
      rw [Int.cast_one, div_le_one (by norm_num)]
      exact h100
    have := fl64_le_int (x := p / 100) (k := 1) (by norm_num) (by norm_num) (by positivity) h1
    simpa using this
  have hWc : fl64 ((W : ℤ) : ℚ) = ((W : ℤ) : ℚ) :=
    fl64_intCast (by exact_mod_cast Nat.zero_le W) hW
  have hv0 : 0 ≤ fl64 (fl64 (p / 100) * fl64 ((W : ℤ) : ℚ)) := by
    apply fl64_nonneg
    rw [hWc]
    exact mul_nonneg hd0 (by positivity)
  have hvW : fl64 (fl64 (p / 100) * fl64 ((W : ℤ) : ℚ)) ≤ ((W : ℤ) : ℚ) := by
    rcases Nat.eq_zero_or_pos W with hw0 | hwpos
    · subst hw0
      simp [hWc, fl64]
    · apply fl64_le_int (by exact_mod_cast hwpos) hW
        (by rw [hWc]; exact mul_nonneg hd0 (by positivity))
      rw [hWc]
      calc fl64 (p / 100) * ((W : ℤ) : ℚ) ≤ 1 * ((W : ℤ) : ℚ) :=
            mul_le_mul_of_nonneg_right hd1 (by positivity)
        _ = ((W : ℤ) : ℚ) := one_mul _
  have hf : pyInt (fl64 (fl64 (p / 100) * fl64 ((W : ℤ) : ℚ)))
      = ⌊fl64 (fl64 (p / 100) * fl64 ((W : ℤ) : ℚ))⌋ := if_pos hv0
  have hff0 : 0 ≤ ⌊fl64 (fl64 (p / 100) * fl64 ((W : ℤ) : ℚ))⌋ := Int.floor_nonneg.2 hv0
  have hffW : ⌊fl64 (fl64 (p / 100) * fl64 ((W : ℤ) : ℚ))⌋ ≤ (W : ℤ) := by
    calc ⌊fl64 (fl64 (p / 100) * fl64 ((W : ℤ) : ℚ))⌋ ≤ ⌊((W : ℤ) : ℚ)⌋ :=
          Int.floor_le_floor hvW
      _ = (W : ℤ) := Int.floor_intCast _
  have hb : ("█" : String).length = 1 := by decide
  have hw : ("░" : String).length = 1 := by decide
  have key0 : segLen (_cpu_bar p (W : ℤ)) 0
      = (pyInt (fl64 (fl64 (p / 100) * fl64 ((W : ℤ) : ℚ)))).toNat := by
    simp [_cpu_bar, segLen, strMul_length, hb, hw]
  have key1 : segLen (_cpu_bar p (W : ℤ)) 1
      = ((W : ℤ) - pyInt (fl64 (fl64 (p / 100) * fl64 ((W : ℤ) : ℚ)))).toNat := by
    simp [_cpu_bar, segLen, strMul_length, hb, hw]
  rw [key0, key1, hf]
  constructor
  · omega
  · omega

theorem C4_cpu_bar_float_witness :
    ((segLen (_cpu_bar (58 : ℚ) ((50 : ℕ) : ℤ)) 0 : ℤ)
        = pyInt (fl64 (fl64 ((58 : ℚ) / 100) * fl64 ((((50 : ℕ) : ℤ)) : ℚ))) ∧
      segLen (_cpu_bar (58 : ℚ) ((50 : ℕ) : ℤ)) 0
        + segLen (_cpu_bar (58 : ℚ) ((50 : ℕ) : ℤ)) 1 = 50) :=
  C4_cpu_bar_float 58 (by norm_num) (by norm_num) 50 (by norm_num)

/-! ### Sparkline claims -/

theorem le_foldl_max (l : List ℚ) : ∀ a : ℚ, a ≤ l.foldl max a := by
  induction l with
  | nil => intro a; simp
  | cons x l ih => intro a; exact le_trans (le_max_left a x) (ih (max a x))

theorem sparkHi_ne_zero (maxVal : Option ℚ) (v : ℚ) (rest : List ℚ) :
    sparkHi maxVal v rest ≠ 0 := by
  unfold sparkHi
  by_cases h : maxVal.getD (rest.foldl max v) = 0
  · simp [h]
  · simp [h]

theorem sparkHi_pos (maxVal : Option ℚ) (v : ℚ) (rest : List ℚ)
    (hv : 0 ≤ v) (hmax : ∀ m, maxVal = some m → 0 ≤ m) : 0 < sparkHi maxVal v rest := by
  unfold sparkHi
  cases maxVal with
  | none =>
    simp only [Option.getD_none]
    by_cases h : rest.foldl max v = 0
    · simp [h]
    · rw [if_neg h]
      exact lt_of_le_of_ne (le_trans hv (le_foldl_max rest v)) (Ne.symm h)
  | some m =>
    simp only [Option.getD_some]
    by_cases h : m = 0
    · simp [h]
    · rw [if_neg h]
      exact lt_of_le_of_ne (hmax m rfl) (Ne.symm h)

theorem pyInt_nonneg {q : ℚ} (h : 0 ≤ q) : 0 ≤ pyInt q := by
  unfold pyInt
  rw [if_pos h]
  exact Int.floor_nonneg.2 h

theorem pySubscript_of_nonneg (l : List Char) (i : ℤ) (h : 0 ≤ i) :
    pySubscript l i = l.get? i.toNat := by
  simp only [pySubscript]
  rw [if_neg (not_lt.2 h), if_pos h]

theorem spark_idx_some (hi v : ℚ) (hv : 0 ≤ v) (hhi : 0 < hi) :
    ∃ c, pySubscript SPARK_CHARS
        (min (pyInt (v / hi * ((SPARK_CHARS.length : ℚ) - 1))) ((SPARK_CHARS.length : ℤ) - 1))
      = some c ∧ c ∈ SPARK_CHARS := by
  have hql : ((SPARK_CHARS.length : ℕ) : ℚ) - 1 = 7 := by
    rw [show SPARK_CHARS.length = 8 from rfl]
    norm_num
  have hzl : ((SPARK_CHARS.length : ℕ) : ℤ) - 1 = 7 := by decide
  rw [hql, hzl]
  have hx : 0 ≤ v / hi * 7 := by positivity
  have h0 : 0 ≤ min (pyInt (v / hi * 7)) 7 := le_min (pyInt_nonneg hx) (by norm_num)
  have h7 : min (pyInt (v / hi * 7)) 7 ≤ 7 := min_le_right _ _
  rw [pySubscript_of_nonneg _ _ h0]
  have hlt : (min (pyInt (v / hi * 7)) 7).toNat < SPARK_CHARS.length := by
    rw [show SPARK_CHARS.length = 8 from rfl]
    omega
  refine ⟨SPARK_CHARS.get ⟨(min (pyInt (v / hi * 7)) 7).toNat, hlt⟩, ?_, List.get_mem _ _ hlt⟩
  exact List.get?_eq_get hlt

theorem sparkChars_some (hi : ℚ) (hhi : 0 < hi) :
    ∀ vs : List ℚ, (∀ v ∈ vs, 0 ≤ v) →
      ∃ cs, sparkChars hi vs = some cs ∧ cs.length = vs.length ∧ ∀ c ∈ cs, c ∈ SPARK_CHARS := by
  intro vs
  induction vs with
  | nil => intro _; exact ⟨[], rfl, rfl, by simp⟩
  | cons v vs ih =>
    intro hv
    obtain ⟨c, hc, hcmem⟩ := spark_idx_some hi v (hv v (by simp)) hhi
    obtain ⟨cs, hcs, hlen, hmem⟩ := ih (fun x hx => hv x (by simp [hx]))
    refine ⟨c :: cs, ?_, by simp [hlen], ?_⟩
    · rw [sparkChars, hc, Option.some_bind, hcs, Option.map_some']
    · intro x hx
      rcases List.mem_cons.1 hx with h | h
      · subst h; exact hcmem
      · exact hmem x h

theorem sparkline_some (vs : List ℚ) (color : String) (maxVal : Option ℚ)
    (hv : ∀ v ∈ vs, 0 ≤ v) (hmax : ∀ m, maxVal = some m → 0 ≤ m) :
    ∃ t : RText, _sparkline vs color maxVal = some t ∧ t.length = vs.length ∧
      ∀ s ∈ t, s.style = color ∧ ∃ c ∈ SPARK_CHARS, s.text = c.toString := by
  cases vs with
  | nil => exact ⟨[], rfl, rfl, by simp⟩
  | cons v rest =>
    have hhi := sparkHi_pos maxVal v rest (hv v (by simp)) hmax
    obtain ⟨cs, hcs, hlen, hmem⟩ := sparkChars_some _ hhi (v :: rest) hv
    refine ⟨cs.map (fun c => (⟨c.toString, color⟩ : Seg)), ?_, by simp [hlen], ?_⟩
    · simp only [_sparkline, hcs, Option.map_some']
    · intro s hs
      obtain ⟨c, hcmem, rfl⟩ := List.mem_map.1 hs
      exact ⟨rfl, c, hmem c hcmem, rfl⟩

/-- C6: the sparkline maps each buffer value to one of the eight block
glyphs by its fraction of the caller-supplied max (when given) or the
buffer's own observed max; a zero max is replaced by 1 so the division is
never by zero; an empty buffer renders as empty output. -/
theorem C6_sparkline :
    (∀ (color : String) (maxVal : Option ℚ), _sparkline [] color maxVal = some []) ∧
    (∀ (vs : List ℚ) (color : String) (maxVal : Option ℚ),
      (∀ v ∈ vs, 0 ≤ v) → (∀ m, maxVal = some m → 0 ≤ m) →
      ∃ t : RText, _sparkline vs color maxVal = some t ∧ t.length = vs.length ∧
        ∀ s ∈ t, ∃ c ∈ SPARK_CHARS, s.text = c.toString) ∧
    (∀ (maxVal : Option ℚ) (v : ℚ) (rest : List ℚ), sparkHi maxVal v rest ≠ 0) := by
  refine ⟨fun _ _ => rfl, ?_, sparkHi_ne_zero⟩
  intro vs color maxVal hv hmax
  obtain ⟨t, ht, hlen, hstyle⟩ := sparkline_some vs color maxVal hv hmax
  exact ⟨t, ht, hlen, fun s hs => (hstyle s hs).2⟩

theorem C6_sparkline_witness :
    ∃ t : RText, _sparkline [0, 1] "dim" none = some t ∧ t.length = ([0, 1] : List ℚ).length ∧
      ∀ s ∈ t, ∃ c ∈ SPARK_CHARS, s.text = c.toString :=
  C6_sparkline.2.1 [0, 1] "dim" none
    (by intro v hv; rcases List.mem_cons.1 hv with rfl | hv1; · norm_num
        · rcases List.mem_cons.1 hv1 with rfl | hv2; · norm_num
          · simp at hv2)
    (fun m hm => Option.noConfusion hm)

theorem filterMap_const_none {α β : Type} (l : List α) :
    l.filterMap (fun _ => (none : Option β)) = [] := by
  induction l with
  | nil => rfl
  | cons x l ih => simp [List.filterMap_cons, ih]

theorem contentTables_hostContent (t b : String) (m : Snapshot) (x y z : RText) :
    contentTables ⟨t, hostContent m x y z, b⟩
      = (if (m.processes.getD []).isEmpty then []
         else [⟨((m.processes.getD []).take 15).map procRow⟩]) := by
  simp only [contentTables, hostContent, perCoreRows]
  by_cases hp : (m.processes.getD []).isEmpty
  · simp [hp, List.filterMap_cons, List.filterMap_append, List.filterMap_map,
      Function.comp, tableOf, filterMap_const_none]
  · simp [hp, List.filterMap_cons, List.filterMap_append, List.filterMap_map,
      Function.comp, tableOf, filterMap_const_none]

theorem render_host_inv {hostname : String} {m : Snapshot} {hist : HistStore} {p : Panel}
    (hp : render_host hostname m hist = some p) :
    ∃ x y z : RText,
      p = ⟨"[bold]" ++ hostname ++ "[/bold]", hostContent m x y z, "blue"⟩ := by
  simp only [render_host] at hp
  cases h1 : _sparkline (dictGet (dictGet hist hostname []) "cpu" []) "green" (some 100) with
  | none => rw [h1] at hp; simp at hp
  | some x =>
    rw [h1] at hp
    cases h2 : _sparkline (dictGet (dictGet hist hostname []) "mem" []) "cyan" (some 100) with
    | none => rw [h2] at hp; simp at hp
    | some y =>
      rw [h2] at hp
      cases h3 : _sparkline (dictGet (dictGet hist hostname []) "net_recv" []) "blue" none with
      | none => rw [h3] at hp; simp at hp
      | some z =>
        rw [h3] at hp
        simp only [Option.some_bind, Option.map_some', Option.some.injEq] at hp
        exact ⟨x, y, z, hp.symm⟩

/-- C8: the rendered process table holds at most the first 15 process
entries in exactly the producer-supplied order (no re-sort), each username
truncated to 10 characters; with no process data the table section is
omitted from the panel entirely. -/
theorem C8_process_table (hostname : String) (m : Snapshot) (hist : HistStore) (p : Panel)
    (hp : render_host hostname m hist = some p) :
    contentTables p = (if (m.processes.getD []).isEmpty then []
      else [⟨((m.processes.getD []).take 15).map procRow⟩]) ∧
    ((m.processes.getD []).take 15).length ≤ 15 ∧
    (∀ pr : Proc, (procRow pr).get? 1 = some [⟨(pr.username.getD "").take 10, ""⟩]) := by
  obtain ⟨x, y, z, rfl⟩ := render_host_inv hp
  refine ⟨contentTables_hostContent _ _ m x y z, ?_, fun pr => rfl⟩
  rw [List.length_take]
  omega

theorem C8_process_table_witness :
    contentTables demoPanel = (if (emptySnap.processes.getD []).isEmpty then []
      else [⟨((emptySnap.processes.getD []).take 15).map procRow⟩]) :=
  (C8_process_table "h1" emptySnap [] demoPanel rfl).1

/-! ### Dashboard composition -/

theorem nonnegHist_get (hs : HistStore) (hn : NonnegHist hs) (host metric : String) :
    ∀ v ∈ historyGet hs host metric, 0 ≤ v := by
  intro v hv
  rw [historyGet] at hv
  rcases dictGet_eq_dflt_or_mem hs host [] with h | ⟨hd, hmem, heq⟩
  · rw [h] at hv
    cases hv
  · rw [heq] at hv
    rcases dictGet_eq_dflt_or_mem hd metric [] with h2 | ⟨l, hmem2, heq2⟩
    · rw [h2] at hv
      cases hv
    · rw [heq2] at hv
      exact hn (host, hd) hmem (metric, l) hmem2 v hv

theorem render_host_some (h : String) (m : Snapshot) (hist : HistStore) (hn : NonnegHist hist) :
    ∃ p, render_host h m hist = some p ∧ p.title = "[bold]" ++ h ++ "[/bold]" := by
  have h100 : ∀ mm : ℚ, (some (100 : ℚ) : Option ℚ) = some mm → 0 ≤ mm := by
    intro mm hmm
    cases hmm
    norm_num
  have hnone : ∀ mm : ℚ, (none : Option ℚ) = some mm → 0 ≤ mm := fun mm hmm =>
    Option.noConfusion hmm
  obtain ⟨x, hx, -, -⟩ := sparkline_some (dictGet (dictGet hist h []) "cpu" []) "green"
    (some 100) (nonnegHist_get hist hn h "cpu") h100
  obtain ⟨y, hy, -, -⟩ := sparkline_some (dictGet (dictGet hist h []) "mem" []) "cyan"
    (some 100) (nonnegHist_get hist hn h "mem") h100
  obtain ⟨z, hz, -, -⟩ := sparkline_some (dictGet (dictGet hist h []) "net_recv" []) "blue"
    none (nonnegHist_get hist hn h "net_recv") hnone
  refine ⟨⟨"[bold]" ++ h ++ "[/bold]", hostContent m x y z, "blue"⟩, ?_, rfl⟩
  simp only [render_host]
  rw [hx, hy, hz, Option.some_bind, Option.some_bind, Option.map_some']

theorem renderPanels_some (store : Store) (hist : HistStore) (hn : NonnegHist hist) :
    ∀ hosts : List String, ∃ items, renderPanels store hist hosts = some items ∧
      items.map itemTitle = hosts.map (fun h => "[bold]" ++ h ++ "[/bold]") ∧
      ∀ it ∈ items, isPanel it := by
  intro hosts
  induction hosts with
  | nil => exact ⟨[], rfl, rfl, by simp⟩
  | cons h rest ih =>
    obtain ⟨p, hp, htitle⟩ := render_host_some h (dictGet store h emptySnap) hist hn
    obtain ⟨items, hi, hmap, hpan⟩ := ih
    refine ⟨GroupItem.panel p :: items, ?_, ?_, ?_⟩
    · rw [renderPanels, hp, Option.some_bind, hi, Option.map_some']
    · simp [itemTitle, htitle, hmap]
    · intro it hit
      rcases List.mem_cons.1 hit with rfl | hit2
      · exact trivial
      · exact hpan it hit2

theorem render_dashboard_some (store : Store) (hist : HistStore) (hne : store ≠ [])
    (hn : NonnegHist hist) :
    ∃ items, render_dashboard store hist = some items ∧
      items.map itemTitle
        = (sortStrs (store.map Prod.fst)).map (fun h => "[bold]" ++ h ++ "[/bold]") ∧
      ∀ it ∈ items, isPanel it := by
  obtain ⟨items, hi, hmap, hpan⟩ := renderPanels_some store hist hn (sortStrs (store.map Prod.fst))
  refine ⟨items, ?_, hmap, hpan⟩
  rw [render_dashboard, if_neg (by simpa using hne)]
  exact hi

/-- C2: the empty store composes to a single waiting placeholder; a
non-empty store composes to exactly one panel per host, titled by
hostname, in ascending lexicographic hostname order regardless of the
store's insertion order; in particular hosts "web1" and "db1" inserted in
either order always present "db1" first. -/
theorem C2_dashboard_order (store : Store) (hist : HistStore) :
    (store = [] → render_dashboard store hist = some [waitingItem]) ∧
    (store ≠ [] → NonnegHist hist →
      ∃ items, render_dashboard store hist = some items ∧
        items.map itemTitle
          = (sortStrs (store.map Prod.fst)).map (fun h => "[bold]" ++ h ++ "[/bold]") ∧
        (∀ it ∈ items, isPanel it) ∧
        List.Sorted (· ≤ ·) (sortStrs (store.map Prod.fst)) ∧
        List.Perm (sortStrs (store.map Prod.fst)) (store.map Prod.fst)) ∧
    (∀ store2 : Store, List.Perm (store2.map Prod.fst) (store.map Prod.fst) →
      sortStrs (store2.map Prod.fst) = sortStrs (store.map Prod.fst)) ∧
    (∀ (a b : Snapshot) (hist2 : HistStore), NonnegHist hist2 →
      ∃ items1 items2,
        render_dashboard [("web1", a), ("db1", b)] hist2 = some items1 ∧
        render_dashboard [("db1", b), ("web1", a)] hist2 = some items2 ∧
        items1.map itemTitle = ["[bold]db1[/bold]", "[bold]web1[/bold]"] ∧
        items2.map itemTitle = ["[bold]db1[/bold]", "[bold]web1[/bold]"]) := by
  refine ⟨?_, ?_, ?_, ?_⟩
  · intro hrfl
    subst hrfl
    rfl
  · intro hne hn
    obtain ⟨items, hi, hmap, hpan⟩ := render_dashboard_some store hist hne hn
    exact ⟨items, hi, hmap, hpan, List.sorted_insertionSort _ _, List.perm_insertionSort _ _⟩
  · intro store2 hperm
    refine List.eq_of_perm_of_sorted ?_ (List.sorted_insertionSort _ _)
      (List.sorted_insertionSort _ _)
    exact ((List.perm_insertionSort _ _).trans hperm).trans
      (List.perm_insertionSort _ _).symm
  · intro a b hist2 hn
    have hsort1 : sortStrs ([("web1", a), ("db1", b)].map Prod.fst) = ["db1", "web1"] := by
      simp only [List.map]
      simp [sortStrs, List.insertionSort, List.orderedInsert]
      decide
    have hsort2 : sortStrs ([("db1", b), ("web1", a)].map Prod.fst) = ["db1", "web1"] := by
      simp only [List.map]
      simp [sortStrs, List.insertionSort, List.orderedInsert]
      decide
    obtain ⟨items1, hi1, hmap1, -⟩ := render_dashboard_some [("web1", a), ("db1", b)] hist2
      (by simp) hn
    obtain ⟨items2, hi2, hmap2, -⟩ := render_dashboard_some [("db1", b), ("web1", a)] hist2
      (by simp) hn
    rw [hsort1] at hmap1
    rw [hsort2] at hmap2
    exact ⟨items1, items2, hi1, hi2, by simpa using hmap1, by simpa using hmap2⟩

theorem C2_dashboard_order_witness :
    render_dashboard ([] : Store) ([] : HistStore) = some [waitingItem] :=
  (C2_dashboard_order [] []).1 rfl

end Htop
